import Mathlib

/-!
Shallow embedding of the master role of a distributed elevator controller
(package `master`, together with the order model of package `queue`).

Pure list-manipulating functions (`OrdersEqual`, `OrderNew`, `addNewOrders`,
`removeDoneOrders`, `updateOrders`) are translated directly from the Go
source.  The master's two event loops (`InitMaster`, Phase A awaiting a
backup, and `masterLoop`, Phase B active) are embedded as step functions on
explicit state: one call of the step function corresponds to one iteration
of the Go `select` loop handling one event.  Timers are represented by the
events they deliver (deadline expiry, slave timeout); network and file I/O
(broadcast, `saveToFile`) have no effect on the master state and are not
modelled.  Decoding of an inbound datagram is fallible, so a message payload
is embedded as `Option SlaveMessage`, `none` standing for a payload on which
`com.DecodeSlaveMessage` fails.
-/

namespace TTK4145

/-- Network address (`network.IP`); an opaque identifier with equality,
modelled as a string. -/
abbrev IP := String

/-- The zero value of `network.IP`, written `⊥` in the specification: the
"taken by nobody" marker. -/
def noIP : IP := ""

/-- `driver.ButtonType`: the three button kinds.  `cabin` is the Go constant
`driver.ButtonCallCommand`. -/
inductive ButtonType
  | hallUp
  | hallDown
  | cabin
deriving DecidableEq, Repr

/-- `OrderButton` from `order.go`: a button kind together with a floor. -/
structure OrderButton where
  type : ButtonType
  floor : Int
deriving DecidableEq, Repr

/-- `Order` from `order.go`. -/
structure Order where
  button : OrderButton
  takenBy : IP
  done : Bool
deriving DecidableEq, Repr

/-- `OrdersEqual` from `order.go`: equality on orders is equality of the
button (floor and type) only. -/
def OrdersEqual (order1 order2 : Order) : Bool :=
  order1.button.floor == order2.button.floor &&
    order1.button.type == order2.button.type

/-- `OrderNew` from `order.go`: a request is new when no order in the list
has an equal button. -/
def OrderNew (request : Order) (orders : List Order) : Bool :=
  orders.all (fun o => !(OrdersEqual request o))

/-- The per-request adjustment performed at the top of the loop body of
`addNewOrders` in `master.go`: a cabin call is stamped with the sender's
address; any other request is left unchanged. -/
def adjustRequest (sender : IP) (request : Order) : Order :=
  if request.button.type = ButtonType.cabin then
    { request with takenBy := sender }
  else
    request

/-- `addNewOrders` from `master.go`: fold over the requests, appending each
(adjusted) request whose button is not yet present in the accumulated
orders. -/
def addNewOrders : List Order → List Order → IP → List Order
  | [], orders, _ => orders
  | request :: rest, orders, sender =>
    addNewOrders rest
      (if OrderNew (adjustRequest sender request) orders then
        orders ++ [adjustRequest sender request]
      else orders)
      sender

/-- The marking pass of `removeDoneOrders` in `master.go` applied to one
order: the order's `done` flag is set when some request with an equal button
is flagged done. -/
def markDone (requests : List Order) (o : Order) : Order :=
  if requests.any (fun request => OrdersEqual o request && request.done) then
    { o with done := true }
  else
    o

/-- `removeDoneOrders` from `master.go`: every order is first marked done
when a matching request is flagged done, then every order whose `done` flag
is set is removed.  The Go loop interleaves the mark and the removal per
index with an `i--` after each removal; since the mark of an entry depends
only on the requests and on that entry, this equals mark-all-then-filter. -/
def removeDoneOrders (requests orders : List Order) : List Order :=
  (orders.map (markDone requests)).filter (fun o => !o.done)

/-- `updateOrders` from `master.go`: the master's reconciliation of a slave's
request batch into its order set. -/
def updateOrders (requests orders : List Order) (sender : IP) : List Order :=
  removeDoneOrders requests (addNewOrders requests orders sender)

/-- Boolean form of the "no two orders share a button" invariant. -/
def distinctButtons : List Order → Bool
  | [] => true
  | o :: os => os.all (fun o' => !(OrdersEqual o o')) && distinctButtons os

/-- Travel direction of an elevator (`driver` package, not under `src/`);
only carried around by the master, never inspected. -/
inductive Direction
  | up
  | down
  | stopped
deriving DecidableEq, Repr

/-- Modelled from the spec: the `com` package is not under `src/`.  Per §3,
`ElevData` is a slave's physical snapshot `{floor, direction, cabinCalls}`.
The master only stores and forwards it. -/
structure ElevData where
  floor : Int
  direction : Direction
  cabinCalls : List Int
deriving DecidableEq, Repr

/-- The zero value of `ElevData`, used by Go when a `com.Slave` record is
created before its `ElevData` field is assigned. -/
def elevDataZero : ElevData := { floor := 0, direction := .stopped, cabinCalls := [] }

/-- Modelled from the spec: `com.SlaveMessage` (§6) — the periodic payload
`{elevData, requests}` sent by a slave and decoded by
`com.DecodeSlaveMessage`. -/
structure SlaveMessage where
  elevData : ElevData
  requests : List Order
deriving DecidableEq, Repr

/-- `com.Slave`, the master-side record for one slave.  The Go record also
owns an `AliveTimer`; the timer is represented by the timeout events it
delivers, not stored in the state. -/
structure Slave where
  ip : IP
  hasTimedOut : Bool
  elevData : ElevData
deriving DecidableEq, Repr

/-- The Go `map[network.IP]com.Slave`, embedded as an association list
with map-update semantics. -/
abbrev Slaves := List (IP × Slave)

/-- Lookup in the slaves map (`slave, exists := slaves[ip]`). -/
def lookupSlave : Slaves → IP → Option Slave
  | [], _ => none
  | p :: rest, a => if p.1 = a then some p.2 else lookupSlave rest a

/-- Map update (`slaves[ip] = slave`): replace the binding when the key is
present, append it otherwise. -/
def insertSlave : Slaves → IP → Slave → Slaves
  | [], a, s => [(a, s)]
  | p :: rest, a, s => if p.1 = a then (a, s) :: rest else p :: insertSlave rest a s

/-- Modelled from the spec: the `delegation` package is not under `src/`.
Per §4.4, `DelegateWork` assigns every hall order to a live slave (here: the
minimal live address, a deterministic address-ordered tie-break standing for
the unspecified cost policy), never reassigns cabin orders, and fails with
`NoLiveSlaves` when no slave is live. -/
def delegateWork (slaves : Slaves) (orders : List Order) : Except String (List Order) :=
  match ((slaves.filter (fun p => !p.2.hasTimedOut)).map Prod.fst).min? with
  | none => Except.error "NoLiveSlaves"
  | some a =>
    Except.ok (orders.map (fun o =>
      if o.button.type = ButtonType.cabin then o else { o with takenBy := a }))

/-- The state carried by one iteration of the Phase B loop `masterLoop`:
the local variables `backup`, `orders` and `slaves`. -/
structure MasterState where
  backup : IP
  orders : List Order
  slaves : Slaves
deriving DecidableEq, Repr

/-- One event multiplexed by the `select` of `masterLoop`: an inbound
datagram from a slave (`none` payload = decode failure), a send tick, or a
slave timeout delivered by `listenForTimeout`. -/
inductive MasterEvent
  | fromSlave (address : IP) (payload : Option SlaveMessage)
  | sendTick
  | slaveTimeout (address : IP)
deriving DecidableEq, Repr

/-- Outcome of one Phase B iteration: keep looping with a new state, or
return `(orders, slaves)` to `InitMaster` (the `return` in the timeout
case). -/
inductive StepResult
  | next (st : MasterState)
  | toPhaseA (orders : List Order) (slaves : Slaves)
deriving DecidableEq, Repr

/-- One iteration of the Phase B loop of `masterLoop` in `master.go`,
handling one event.  `myIP` is the package-level `myIP = network.GetOwnIP()`.
Broadcast and `saveToFile` on the send tick are I/O without effect on the
loop state; `DelegateWork` updates the orders' `takenBy` in place and its
error is only logged, so on error the orders are retained. -/
def masterStep (myIP : IP) (st : MasterState) (ev : MasterEvent) : StepResult :=
  match ev with
  | .fromSlave sender payload =>
    match payload with
    | none => .next st
    | some data =>
      let backup := if st.backup = myIP ∧ sender ≠ myIP then sender else st.backup
      let slave0 :=
        match lookupSlave st.slaves sender with
        | some s => s
        | none => { ip := sender, hasTimedOut := false, elevData := elevDataZero }
      let slave := { slave0 with hasTimedOut := false, elevData := data.elevData }
      let slaves := insertSlave st.slaves sender slave
      let orders := updateOrders data.requests st.orders sender
      .next { backup := backup, orders := orders, slaves := slaves }
  | .sendTick =>
    let orders :=
      match delegateWork st.slaves st.orders with
      | .ok o => o
      | .error _ => st.orders
    .next { st with orders := orders }
  | .slaveTimeout a =>
    match lookupSlave st.slaves a with
    | some s =>
      let slaves := insertSlave st.slaves a { s with hasTimedOut := true }
      let orders :=
        match delegateWork slaves st.orders with
        | .ok o => o
        | .error _ => st.orders
      if a = st.backup then .toPhaseA orders slaves
      else .next { st with slaves := slaves, orders := orders }
    | none =>
      if a = st.backup then .toPhaseA st.orders st.slaves
      else .next st

/-- The state carried by one iteration of the Phase A loop of `InitMaster`:
the latched `selfAsBackup` flag (set when the `backupDeadlineTimer` fires)
and the held `(orders, slaves)` pair. -/
structure AwaitState where
  selfAsBackup : Bool
  orders : List Order
  slaves : Slaves
deriving DecidableEq, Repr

/-- One event multiplexed by the `select` of `InitMaster`'s Phase A loop:
the backup deadline firing, or an inbound datagram (`none` = decode
failure). -/
inductive AwaitEvent
  | deadline
  | fromSlave (address : IP) (payload : Option SlaveMessage)
deriving DecidableEq, Repr

/-- Outcome of one Phase A iteration: keep waiting, or call `masterLoop`
with the accepted backup address and the held `(orders, slaves)`. -/
inductive AwaitResult
  | wait (st : AwaitState)
  | enterLoop (backup : IP) (orders : List Order) (slaves : Slaves)
deriving DecidableEq, Repr

/-- One iteration of the Phase A loop of `InitMaster` in `master.go`.  The
decoded payload is discarded (`_, err := com.DecodeSlaveMessage(...)`): only
decodability and the source address matter. -/
def initMasterStep (myIP : IP) (st : AwaitState) (ev : AwaitEvent) : AwaitResult :=
  match ev with
  | .deadline => .wait { st with selfAsBackup := true }
  | .fromSlave sender payload =>
    match payload with
    | none => .wait st
    | some _ =>
      if (st.selfAsBackup ∧ sender = myIP) ∨ sender ≠ myIP then
        .enterLoop sender st.orders st.slaves
      else
        .wait st

/-- The initialisation of the slaves map at the top of `masterLoop`: each
record of `initialSlaves` is given a fresh timer and re-inserted keyed by
its `IP` field. -/
def initSlaves (initial : Slaves) : Slaves :=
  initial.foldl (fun acc p => insertSlave acc p.2.ip p.2) []

/-! ### Basic lemmas about order equality and the reconciliation passes -/

theorem OrdersEqual_iff (a b : Order) : OrdersEqual a b = true ↔ a.button = b.button := by
  obtain ⟨⟨aty, afl⟩, atk, adn⟩ := a
  obtain ⟨⟨bty, bfl⟩, btk, bdn⟩ := b
  simp [OrdersEqual, OrderButton.mk.injEq, and_comm]

theorem OrdersEqual_eq_false (a b : Order) : OrdersEqual a b = false ↔ a.button ≠ b.button := by
  rw [ne_eq, ← OrdersEqual_iff, Bool.not_eq_true]

theorem adjustRequest_button (A : IP) (r : Order) : (adjustRequest A r).button = r.button := by
  by_cases h : r.button.type = ButtonType.cabin <;> simp [adjustRequest, h]

theorem adjustRequest_done (A : IP) (r : Order) : (adjustRequest A r).done = r.done := by
  by_cases h : r.button.type = ButtonType.cabin <;> simp [adjustRequest, h]

theorem adjustRequest_takenBy (A : IP) (r : Order) :
    (adjustRequest A r).takenBy =
      (if r.button.type = ButtonType.cabin then A else r.takenBy) := by
  by_cases h : r.button.type = ButtonType.cabin <;> simp [adjustRequest, h]

theorem OrderNew_iff (r : Order) (orders : List Order) :
    OrderNew r orders = true ↔ ∀ o ∈ orders, r.button ≠ o.button := by
  simp [OrderNew, List.all_eq_true, OrdersEqual_eq_false]

theorem OrderNew_eq_false (r : Order) (orders : List Order) :
    OrderNew r orders = false ↔ ∃ o ∈ orders, r.button = o.button := by
  constructor
  · intro h
    by_contra hc
    push_neg at hc
    have ht : OrderNew r orders = true := (OrderNew_iff r orders).mpr hc
    rw [ht] at h
    cases h
  · rintro ⟨o, ho, he⟩
    cases hN : OrderNew r orders with
    | false => rfl
    | true => exact absurd he ((OrderNew_iff r orders).mp hN o ho)

theorem OrdersEqual_congr_left (a a' b : Order) (h : a.button = a'.button) :
    OrdersEqual a b = OrdersEqual a' b := by
  simp [OrdersEqual, h]

theorem OrderNew_adjust (A : IP) (r : Order) (orders : List Order) :
    OrderNew (adjustRequest A r) orders = OrderNew r orders := by
  unfold OrderNew
  congr 1
  funext o
  rw [OrdersEqual_congr_left _ r _ (adjustRequest_button A r)]

theorem markDone_button (R : List Order) (o : Order) : (markDone R o).button = o.button := by
  unfold markDone
  split <;> rfl

theorem markDone_eq_self (R : List Order) (o : Order)
    (h : ∀ r ∈ R, r.done = true → o.button ≠ r.button) : markDone R o = o := by
  have hany : R.any (fun r => OrdersEqual o r && r.done) = false := by
    rw [Bool.eq_false_iff]
    intro hc
    rw [List.any_eq_true] at hc
    obtain ⟨r, hr, hb⟩ := hc
    rw [Bool.and_eq_true] at hb
    exact h r hr hb.2 ((OrdersEqual_iff o r).mp hb.1)
  simp [markDone, hany]

theorem markDone_done_of_match (R : List Order) (o : Order)
    (h : ∃ r ∈ R, r.done = true ∧ o.button = r.button) : (markDone R o).done = true := by
  obtain ⟨r, hr, hrd, hb⟩ := h
  have hany : R.any (fun r => OrdersEqual o r && r.done) = true :=
    List.any_eq_true.mpr ⟨r, hr, by
      rw [Bool.and_eq_true]
      exact ⟨(OrdersEqual_iff o r).mpr hb, hrd⟩⟩
  simp [markDone, hany]

theorem removeDoneOrders_append (R X Y : List Order) :
    removeDoneOrders R (X ++ Y) = removeDoneOrders R X ++ removeDoneOrders R Y := by
  simp [removeDoneOrders]

theorem removeDoneOrders_cons (R : List Order) (x : Order) (xs : List Order) :
    removeDoneOrders R (x :: xs) =
      if (markDone R x).done then removeDoneOrders R xs
      else markDone R x :: removeDoneOrders R xs := by
  by_cases h : (markDone R x).done = true <;>
    simp [removeDoneOrders, List.filter_cons, h]

theorem mem_removeDoneOrders (R X : List Order) (o : Order) :
    o ∈ removeDoneOrders R X ↔
      o ∈ X ∧ o.done = false ∧ ∀ r ∈ R, r.done = true → o.button ≠ r.button := by
  unfold removeDoneOrders
  rw [List.mem_filter, List.mem_map]
  constructor
  · rintro ⟨⟨a, ha, hmk⟩, hdone⟩
    have hdf : o.done = false := by simpa using hdone
    cases hany : R.any (fun r => OrdersEqual a r && r.done) with
    | true =>
      exfalso
      have : markDone R a = { a with done := true } := by simp [markDone, hany]
      rw [this] at hmk
      rw [← hmk] at hdf
      cases hdf
    | false =>
      have hmka : markDone R a = a := by simp [markDone, hany]
      rw [hmka] at hmk
      subst hmk
      refine ⟨ha, hdf, fun r hr hrd hbeq => ?_⟩
      have hth : R.any (fun r => OrdersEqual a r && r.done) = true :=
        List.any_eq_true.mpr ⟨r, hr, by
          rw [Bool.and_eq_true]
          exact ⟨(OrdersEqual_iff a r).mpr hbeq, hrd⟩⟩
      rw [hany] at hth
      cases hth
  · rintro ⟨hmem, hdf, hno⟩
    exact ⟨⟨o, hmem, markDone_eq_self R o hno⟩, by simp [hdf]⟩

theorem removeDoneOrders_eq_self (R X : List Order)
    (h : ∀ o ∈ X, o.done = false ∧ ∀ r ∈ R, r.done = true → o.button ≠ r.button) :
    removeDoneOrders R X = X := by
  induction X with
  | nil => rfl
  | cons x xs ih =>
    have hx := h x (List.mem_cons_self x xs)
    rw [removeDoneOrders_cons, markDone_eq_self R x hx.2, if_neg (by simp [hx.1]),
      ih (fun o ho => h o (List.mem_cons_of_mem _ ho))]

theorem removeDoneOrders_eq_nil (R X : List Order)
    (h : ∀ o ∈ X, ∃ r ∈ R, r.done = true ∧ o.button = r.button) :
    removeDoneOrders R X = [] := by
  induction X with
  | nil => rfl
  | cons x xs ih =>
    rw [removeDoneOrders_cons,
      if_pos (markDone_done_of_match R x (h x (List.mem_cons_self x xs)))]
    exact ih (fun o ho => h o (List.mem_cons_of_mem _ ho))

theorem mem_addNewOrders_of_mem (R : List Order) :
    ∀ (acc : List Order) (A : IP) (x : Order), x ∈ acc → x ∈ addNewOrders R acc A := by
  induction R with
  | nil => intro acc A x hx; simpa [addNewOrders] using hx
  | cons r rs ih =>
    intro acc A x hx
    cases h : OrderNew (adjustRequest A r) acc with
    | true =>
      simp only [addNewOrders, h, if_true]
      exact ih _ A x (List.mem_append_left _ hx)
    | false =>
      simp only [addNewOrders, h, if_false]
      exact ih _ A x hx

theorem addNewOrders_decomp (R : List Order) :
    ∀ (acc : List Order) (A : IP),
      ∃ ext, addNewOrders R acc A = acc ++ ext ∧
        ∀ x ∈ ext, (∃ r ∈ R, x = adjustRequest A r) ∧ ∀ o ∈ acc, x.button ≠ o.button := by
  induction R with
  | nil => intro acc A; exact ⟨[], by simp [addNewOrders], by simp⟩
  | cons r rs ih =>
    intro acc A
    cases h : OrderNew (adjustRequest A r) acc with
    | false =>
      obtain ⟨ext, heq, hprop⟩ := ih acc A
      refine ⟨ext, ?_, ?_⟩
      · simp only [addNewOrders, h, if_false]
        exact heq
      · intro x hx
        obtain ⟨⟨r₀, hr₀, hxr⟩, hfresh⟩ := hprop x hx
        exact ⟨⟨r₀, List.mem_cons_of_mem _ hr₀, hxr⟩, hfresh⟩
    | true =>
      obtain ⟨ext, heq, hprop⟩ := ih (acc ++ [adjustRequest A r]) A
      refine ⟨adjustRequest A r :: ext, ?_, ?_⟩
      · simp only [addNewOrders, h, if_true]
        rw [heq]
        simp
      · intro x hx
        rcases List.mem_cons.mp hx with hx | hx
        · subst hx
          exact ⟨⟨r, List.mem_cons_self r rs, rfl⟩,
            fun o ho => (OrderNew_iff _ acc).mp h o ho⟩
        · obtain ⟨⟨r₀, hr₀, hxr⟩, hfresh⟩ := hprop x hx
          exact ⟨⟨r₀, List.mem_cons_of_mem _ hr₀, hxr⟩,
            fun o ho => hfresh o (List.mem_append_left _ ho)⟩

theorem addNewOrders_covers (R : List Order) :
    ∀ (acc : List Order) (A : IP) (r : Order), r ∈ R →
      ∃ o ∈ addNewOrders R acc A, o.button = r.button := by
  induction R with
  | nil => intro _ _ _ h; cases h
  | cons r₀ rs ih =>
    intro acc A r hr
    rcases List.mem_cons.mp hr with hr | hr
    · subst hr
      cases h : OrderNew (adjustRequest A r) acc with
      | true =>
        refine ⟨adjustRequest A r, ?_, adjustRequest_button A r⟩
        simp only [addNewOrders, h, if_true]
        exact mem_addNewOrders_of_mem rs _ A _
          (List.mem_append_right _ (List.mem_singleton_self _))
      | false =>
        obtain ⟨o, ho, hob⟩ := (OrderNew_eq_false _ _).mp h
        refine ⟨o, ?_, by rw [← hob, adjustRequest_button]⟩
        simp only [addNewOrders, h, if_false]
        exact mem_addNewOrders_of_mem rs _ A _ ho
    · cases h : OrderNew (adjustRequest A r₀) acc with
      | true =>
        simp only [addNewOrders, h, if_true]
        exact ih _ A r hr
      | false =>
        simp only [addNewOrders, h, if_false]
        exact ih _ A r hr

/-! ### Claim C1 — order-set idempotence of reconciliation -/

/-- Claim C1, disproved as stated: reconciling the same batch twice can
change the result when the initial orders list already carries an order
flagged `done = true`.  Concretely, with one already-done `HallUp@0` order
and a batch holding the same button not flagged done, the first application
deletes the order (the removal pass drops every done order, matched or not)
while the second application re-inserts the request. -/
theorem updateOrders_not_idempotent :
    updateOrders
        [{ button := { type := .hallUp, floor := 0 }, takenBy := "", done := false }]
        (updateOrders
          [{ button := { type := .hallUp, floor := 0 }, takenBy := "", done := false }]
          [{ button := { type := .hallUp, floor := 0 }, takenBy := "", done := true }]
          "10.0.0.2")
        "10.0.0.2"
      ≠
      updateOrders
        [{ button := { type := .hallUp, floor := 0 }, takenBy := "", done := false }]
        [{ button := { type := .hallUp, floor := 0 }, takenBy := "", done := true }]
        "10.0.0.2" := by
  decide

/-- Claim C1 (amended): reconciliation is idempotent on every orders list in
which no order is flagged `done = true` — in particular on every orders list
the master actually holds, since reconciliation never leaves a done order
behind.  For such a list, applying `updateOrders` twice with the same batch
and sender equals applying it once. -/
theorem updateOrders_idempotent (R O : List Order) (A : IP)
    (hO : ∀ o ∈ O, o.done = false) :
    updateOrders R (updateOrders R O A) A = updateOrders R O A := by
  have hO₁eq : updateOrders R O A = removeDoneOrders R (addNewOrders R O A) := rfl
  have hmem : ∀ o ∈ updateOrders R O A,
      o ∈ addNewOrders R O A ∧ o.done = false ∧
        ∀ r ∈ R, r.done = true → o.button ≠ r.button := by
    intro o ho
    rw [hO₁eq] at ho
    exact (mem_removeDoneOrders R _ o).mp ho
  obtain ⟨ext, hdec, hprop⟩ := addNewOrders_decomp R (updateOrders R O A) A
  have hsecond : updateOrders R (updateOrders R O A) A =
      removeDoneOrders R (updateOrders R O A) ++ removeDoneOrders R ext := by
    show removeDoneOrders R (addNewOrders R (updateOrders R O A) A) = _
    rw [hdec, removeDoneOrders_append]
  have hself : removeDoneOrders R (updateOrders R O A) = updateOrders R O A :=
    removeDoneOrders_eq_self R _ (fun o ho => (hmem o ho).2)
  have hnil : removeDoneOrders R ext = [] := by
    apply removeDoneOrders_eq_nil
    intro x hx
    obtain ⟨⟨r, hrR, hxr⟩, hfresh⟩ := hprop x hx
    have hxb : x.button = r.button := by rw [hxr, adjustRequest_button]
    obtain ⟨o, hoadd, hob⟩ := addNewOrders_covers R O A r hrR
    have honotin : o ∉ updateOrders R O A := by
      intro hoin
      exact hfresh o hoin (by rw [hxb, ← hob])
    have hcase : o.done = true ∨ ∃ r' ∈ R, r'.done = true ∧ o.button = r'.button := by
      by_contra hc
      push_neg at hc
      obtain ⟨hnd, hnomatch⟩ := hc
      have hdf : o.done = false := by
        cases h : o.done with
        | false => rfl
        | true => exact absurd h hnd
      refine honotin ?_
      rw [hO₁eq]
      exact (mem_removeDoneOrders R _ o).mpr
        ⟨hoadd, hdf, fun r' hm hd heq => hnomatch r' hm hd heq⟩
    rcases hcase with hdone | ⟨r', hr'R, hr'd, hbeq⟩
    · obtain ⟨ext₁, hdec₁, hprop₁⟩ := addNewOrders_decomp R O A
      rw [hdec₁] at hoadd
      rcases List.mem_append.mp hoadd with hoO | hoext
      · rw [hO o hoO] at hdone
        cases hdone
      · obtain ⟨⟨r₁, hr₁R, hor₁⟩, _⟩ := hprop₁ o hoext
        refine ⟨r₁, hr₁R, ?_, ?_⟩
        · rw [← adjustRequest_done A r₁, ← hor₁]
          exact hdone
        · rw [hxb, ← hob, hor₁, adjustRequest_button]
    · exact ⟨r', hr'R, hr'd, by rw [hxb, ← hob, hbeq]⟩
  rw [hsecond, hself, hnil, List.append_nil]

/-- Witness for the amended C1 at a concrete done-free orders list. -/
theorem updateOrders_idempotent_witness :
    updateOrders
        [{ button := { type := .hallUp, floor := 0 }, takenBy := "", done := true }]
        (updateOrders
          [{ button := { type := .hallUp, floor := 0 }, takenBy := "", done := true }]
          [{ button := { type := .hallDown, floor := 2 }, takenBy := "10.0.0.3", done := false }]
          "10.0.0.2")
        "10.0.0.2"
      =
      updateOrders
        [{ button := { type := .hallUp, floor := 0 }, takenBy := "", done := true }]
        [{ button := { type := .hallDown, floor := 2 }, takenBy := "10.0.0.3", done := false }]
        "10.0.0.2" :=
  updateOrders_idempotent _ _ _ (by decide)

/-! ### Claim C2 — the distinct-buttons invariant is preserved -/

theorem distinctButtons_iff (l : List Order) :
    distinctButtons l = true ↔ l.Pairwise (fun a b => a.button ≠ b.button) := by
  induction l with
  | nil => simp [distinctButtons]
  | cons o os ih =>
    simp [distinctButtons, List.pairwise_cons, List.all_eq_true, OrdersEqual_eq_false, ih]

theorem distinctButtons_append_singleton (l : List Order) (x : Order)
    (hl : distinctButtons l = true) (hx : ∀ o ∈ l, x.button ≠ o.button) :
    distinctButtons (l ++ [x]) = true := by
  rw [distinctButtons_iff] at hl ⊢
  rw [List.pairwise_append]
  refine ⟨hl, by simp, ?_⟩
  intro a ha b hb
  rw [List.mem_singleton] at hb
  subst hb
  exact fun h => hx a ha h.symm

theorem distinctButtons_addNewOrders (R : List Order) :
    ∀ (acc : List Order) (A : IP), distinctButtons acc = true →
      distinctButtons (addNewOrders R acc A) = true := by
  induction R with
  | nil => intro acc A h; simpa [addNewOrders] using h
  | cons r rs ih =>
    intro acc A h
    cases hN : OrderNew (adjustRequest A r) acc with
    | true =>
      simp only [addNewOrders, hN, if_true]
      exact ih _ A (distinctButtons_append_singleton acc _ h ((OrderNew_iff _ acc).mp hN))
    | false =>
      simp only [addNewOrders, hN, if_false]
      exact ih _ A h

theorem distinctButtons_removeDoneOrders (R X : List Order)
    (h : distinctButtons X = true) : distinctButtons (removeDoneOrders R X) = true := by
  rw [distinctButtons_iff] at h ⊢
  apply List.Pairwise.sublist (List.filter_sublist _)
  rw [List.pairwise_map]
  exact h.imp (fun hab => by rwa [markDone_button, markDone_button])

/-- Claim C2: if no two orders in the list share a button, the list produced
by the master's reconciliation (`addNewOrders` then `removeDoneOrders`)
again has pairwise distinct buttons, for every request batch and sender. -/
theorem updateOrders_distinctButtons (R O : List Order) (A : IP)
    (h : distinctButtons O = true) :
    distinctButtons (updateOrders R O A) = true :=
  distinctButtons_removeDoneOrders R _ (distinctButtons_addNewOrders R O A h)

/-- Witness for C2 at a concrete two-order list and a batch that both adds
a new button and completes an existing one. -/
theorem updateOrders_distinctButtons_witness :
    distinctButtons (updateOrders
        [{ button := { type := .hallUp, floor := 1 }, takenBy := "", done := false },
         { button := { type := .hallDown, floor := 3 }, takenBy := "", done := true }]
        [{ button := { type := .cabin, floor := 0 }, takenBy := "10.0.0.2", done := false },
         { button := { type := .hallDown, floor := 3 }, takenBy := "10.0.0.3", done := false }]
        "10.0.0.2") = true :=
  updateOrders_distinctButtons _ _ _ (by decide)

/-! ### Claim C3 — `takenBy` of a newly inserted request -/

/-- Claim C3, disproved as stated: `addNewOrders` never resets a hall
request's `takenBy` to `⊥`.  A hall request carrying a non-`⊥` address is
appended with that address unchanged. -/
theorem addNewOrders_hall_takenBy_not_bot :
    addNewOrders
        [{ button := { type := .hallUp, floor := 2 }, takenBy := "10.0.0.5", done := false }]
        [] "10.0.0.1"
      = [{ button := { type := .hallUp, floor := 2 }, takenBy := "10.0.0.5", done := false }]
    ∧ ("10.0.0.5" : IP) ≠ noIP := by
  decide

/-- Claim C3 (amended): for a batch with pairwise distinct buttons, every
request whose button is not yet in `orders` is appended by `addNewOrders`;
the appended order's `takenBy` is the sender's address `A` when the request
is a cabin call and the request's own (unchanged) `takenBy` when it is a
hall call — so `⊥` exactly when the slave sent it as `⊥`. -/
theorem addNewOrders_insert (R : List Order) :
    ∀ (orders : List Order) (A : IP) (r : Order),
      r ∈ R → distinctButtons R = true → OrderNew r orders = true →
      ∃ o ∈ addNewOrders R orders A, o.button = r.button ∧ o.done = r.done ∧
        o.takenBy = (if r.button.type = ButtonType.cabin then A else r.takenBy) := by
  induction R with
  | nil => intro _ _ _ h; cases h
  | cons r₀ rs ih =>
    intro orders A r hr hdist hnew
    obtain ⟨hhead, htail⟩ := List.pairwise_cons.mp ((distinctButtons_iff _).mp hdist)
    have hdrs : distinctButtons rs = true := (distinctButtons_iff rs).mpr htail
    rcases List.mem_cons.mp hr with hr | hr
    · subst hr
      have hN : OrderNew (adjustRequest A r) orders = true := by
        rw [OrderNew_adjust]
        exact hnew
      refine ⟨adjustRequest A r, ?_, adjustRequest_button A r, adjustRequest_done A r,
        adjustRequest_takenBy A r⟩
      simp only [addNewOrders, hN, if_true]
      exact mem_addNewOrders_of_mem rs _ A _
        (List.mem_append_right _ (List.mem_singleton_self _))
    · cases hN : OrderNew (adjustRequest A r₀) orders with
      | true =>
        simp only [addNewOrders, hN, if_true]
        apply ih _ A r hr hdrs
        rw [OrderNew_iff]
        intro o ho
        rcases List.mem_append.mp ho with ho | ho
        · exact (OrderNew_iff r orders).mp hnew o ho
        · rw [List.mem_singleton] at ho
          subst ho
          rw [adjustRequest_button]
          exact (hhead r hr).symm
      | false =>
        simp only [addNewOrders, hN, if_false]
        exact ih _ A r hr hdrs hnew

/-- Witness for the amended C3: a fresh hall request is appended with its
own `takenBy`, next to a cabin request stamped with the sender. -/
theorem addNewOrders_insert_witness :
    ∃ o ∈ addNewOrders
        [{ button := { type := .cabin, floor := 0 }, takenBy := "", done := false },
         { button := { type := .hallUp, floor := 2 }, takenBy := "10.0.0.5", done := false }]
        [] "10.0.0.1",
      o.button = ({ type := .hallUp, floor := 2 } : OrderButton) ∧ o.done = false ∧
        o.takenBy = (if ({ type := .hallUp, floor := 2 } : OrderButton).type = ButtonType.cabin
          then "10.0.0.1" else "10.0.0.5") :=
  addNewOrders_insert _ [] "10.0.0.1"
    { button := { type := .hallUp, floor := 2 }, takenBy := "10.0.0.5", done := false }
    (by decide) (by decide) (by decide)

/-! ### Claim C4 — done-removal postcondition -/

/-- Claim C4: for every orders list, request batch and sender, after the
master reconciles the batch no order in the result shares a button with a
request flagged `done = true`, and no order in the result is flagged
`done = true` itself. -/
theorem updateOrders_done_removal (R O : List Order) (A : IP) :
    ∀ o ∈ updateOrders R O A,
      o.done = false ∧ ∀ r ∈ R, r.done = true → o.button ≠ r.button := by
  intro o ho
  have h := (mem_removeDoneOrders R (addNewOrders R O A) o).mp ho
  exact ⟨h.2.1, h.2.2⟩

/-- Witness for C4: a surviving order of a concrete reconciliation is not
done and avoids the done request's button. -/
theorem updateOrders_done_removal_witness :
    ({ button := { type := .hallUp, floor := 1 }, takenBy := "10.0.0.4", done := false } :
        Order).done = false ∧
      ∀ r ∈ [({ button := { type := .hallDown, floor := 3 }, takenBy := "", done := true } :
        Order)],
        r.done = true →
          ({ button := { type := .hallUp, floor := 1 }, takenBy := "10.0.0.4", done := false } :
            Order).button ≠ r.button :=
  updateOrders_done_removal
    [{ button := { type := .hallDown, floor := 3 }, takenBy := "", done := true }]
    [{ button := { type := .hallUp, floor := 1 }, takenBy := "10.0.0.4", done := false }]
    "10.0.0.2"
    { button := { type := .hallUp, floor := 1 }, takenBy := "10.0.0.4", done := false }
    (by decide)

/-! ### Lemmas about the slaves map and the delegation function -/

theorem lookupSlave_insertSlave_self (S : Slaves) (a : IP) (v : Slave) :
    lookupSlave (insertSlave S a v) a = some v := by
  induction S with
  | nil => simp [insertSlave, lookupSlave]
  | cons p rest ih =>
    by_cases h : p.1 = a
    · simp [insertSlave, lookupSlave, h]
    · simp [insertSlave, lookupSlave, h, ih]

theorem lookupSlave_insertSlave_other (S : Slaves) (a b : IP) (v : Slave) (h : b ≠ a) :
    lookupSlave (insertSlave S a v) b = lookupSlave S b := by
  induction S with
  | nil => simp [insertSlave, lookupSlave, Ne.symm h]
  | cons p rest ih =>
    by_cases h2 : p.1 = a
    · simp [insertSlave, lookupSlave, h2, Ne.symm h]
    · by_cases h3 : p.1 = b <;> simp [insertSlave, lookupSlave, h2, h3, h, ih]

theorem lookupSlave_eq_none_iff (S : Slaves) (a : IP) :
    lookupSlave S a = none ↔ ∀ p ∈ S, p.1 ≠ a := by
  induction S with
  | nil => simp [lookupSlave]
  | cons p rest ih =>
    by_cases h : p.1 = a <;> simp [lookupSlave, h, ih]

theorem foldl_insertSlave_none (a : IP) :
    ∀ (S : Slaves) (acc : Slaves), (∀ p ∈ S, p.2.ip ≠ a) → lookupSlave acc a = none →
      lookupSlave (S.foldl (fun acc p => insertSlave acc p.2.ip p.2) acc) a = none := by
  intro S
  induction S with
  | nil => intro acc _ h; simpa using h
  | cons p rest ih =>
    intro acc hS hacc
    rw [List.foldl_cons]
    refine ih _ (fun q hq => hS q (List.mem_cons_of_mem _ hq)) ?_
    rw [lookupSlave_insertSlave_other _ _ _ _ (Ne.symm (hS p (List.mem_cons_self p rest)))]
    exact hacc

theorem lookupSlave_initSlaves_none (S : Slaves) (a : IP)
    (hip : ∀ p ∈ S, p.2.ip = p.1) (hnone : lookupSlave S a = none) :
    lookupSlave (initSlaves S) a = none := by
  have hkeys : ∀ p ∈ S, p.1 ≠ a := (lookupSlave_eq_none_iff S a).mp hnone
  exact foldl_insertSlave_none a S []
    (fun p hp => by rw [hip p hp]; exact hkeys p hp) rfl

theorem delegateWork_buttons (sl : Slaves) (os res : List Order)
    (h : delegateWork sl os = Except.ok res) :
    res.map Order.button = os.map Order.button := by
  unfold delegateWork at h
  cases hm : ((sl.filter (fun p => !p.2.hasTimedOut)).map Prod.fst).min? with
  | none =>
    rw [hm] at h
    cases h
  | some a =>
    rw [hm] at h
    cases h
    rw [List.map_map]
    apply List.map_congr_left
    intro o ho
    by_cases hc : o.button.type = ButtonType.cabin <;> simp [hc]

/-! ### Claim C5 — Phase A backup acceptability -/

/-- Claim C5: in the awaiting-backup phase, a decodable slave message from a
remote address always triggers the transition to Phase B with that address
as the assigned backup; a message from the master's own address triggers it
only when the `selfAsBackup` latch holds, and the latch is set exactly by
the expiry of the `backupDeadline` timer (third conjunct). -/
theorem initMaster_backup_acceptability (myIP : IP) (st : AwaitState) (sender : IP)
    (msg : SlaveMessage) :
    (sender ≠ myIP →
      initMasterStep myIP st (.fromSlave sender (some msg)) =
        .enterLoop sender st.orders st.slaves)
    ∧ (∀ b o s, initMasterStep myIP st (.fromSlave sender (some msg)) = .enterLoop b o s →
        sender = myIP → st.selfAsBackup = true)
    ∧ initMasterStep myIP st .deadline = .wait { st with selfAsBackup := true } := by
  refine ⟨?_, ?_, rfl⟩
  · intro h
    simp [initMasterStep, h]
  · intro b o s hstep hself
    by_cases hs : st.selfAsBackup = true
    · exact hs
    · simp [initMasterStep, hs, hself] at hstep

/-- Witness for C5: at a concrete state, a remote message is accepted as
backup at once. -/
theorem initMaster_backup_acceptability_witness :
    initMasterStep "10.0.0.1" { selfAsBackup := false, orders := [], slaves := [] }
        (.fromSlave "10.0.0.2" (some { elevData := elevDataZero, requests := [] }))
      = .enterLoop "10.0.0.2" [] [] :=
  (initMaster_backup_acceptability "10.0.0.1"
    { selfAsBackup := false, orders := [], slaves := [] } "10.0.0.2"
    { elevData := elevDataZero, requests := [] }).1 (by decide)

/-! ### Claim C6 — self-messages and reconciliation -/

/-- Claim C6, disproved as stated: in Phase A a decodable message from the
master's own address (with `selfAsBackup` not latched) is dropped entirely —
its requests are not merged and no state change happens — so self-messages
are not reconciled "in both master phases". -/
theorem selfMessage_phaseA_not_reconciled :
    initMasterStep "10.0.0.1" { selfAsBackup := false, orders := [], slaves := [] }
        (.fromSlave "10.0.0.1"
          (some
            { elevData := elevDataZero,
              requests :=
                [{ button := { type := .hallUp, floor := 1 }, takenBy := "", done := false }] }))
      = .wait { selfAsBackup := false, orders := [], slaves := [] } := by
  decide

/-- Claim C6 (amended): in Phase B every decodable slave message from the
master's own address is processed for order reconciliation — its requests
are merged through `updateOrders`, the master's own slave record is
created/updated with the reported `elevData` and a cleared timeout flag, and
the assigned backup is unchanged.  Phase B has no self-as-backup flag at
all; the flag only gates whether a self message may trigger the Phase A→B
transition.  In Phase A no message is reconciled. -/
theorem selfMessage_reconciled_phaseB (myIP : IP) (st : MasterState) (msg : SlaveMessage) :
    ∃ st', masterStep myIP st (.fromSlave myIP (some msg)) = .next st' ∧
      st'.orders = updateOrders msg.requests st.orders myIP ∧
      (∃ s', lookupSlave st'.slaves myIP = some s' ∧ s'.hasTimedOut = false ∧
        s'.elevData = msg.elevData) ∧
      st'.backup = st.backup := by
  refine ⟨_, rfl, rfl, ⟨_, lookupSlave_insertSlave_self _ _ _, rfl, rfl⟩, ?_⟩
  simp

/-! ### Claim C7 — decode-failure atomicity -/

/-- Claim C7: an inbound datagram whose payload fails to decode leaves the
master's state entirely unchanged: in Phase B the loop continues with the
same `(backup, orders, slaves)`, and in Phase A no transition occurs and the
await state is unchanged. -/
theorem decodeFailure_atomic (myIP : IP) (st : MasterState) (stA : AwaitState) (sender : IP) :
    masterStep myIP st (.fromSlave sender none) = .next st ∧
    initMasterStep myIP stA (.fromSlave sender none) = .wait stA :=
  ⟨rfl, rfl⟩

/-! ### Claim C8 — slave-timeout handling -/

/-- Claim C8: when the alive timer fires for a known address `A`, the master
marks `A`'s record `hasTimedOut` while keeping it (and every other record)
in the slaves map, no order is added to or removed from the orders list
(delegation only rewrites `takenBy`), and the loop returns to Phase A
carrying exactly the current orders and slaves precisely when `A` is the
assigned backup. -/
theorem slaveTimeout_handling (myIP : IP) (st : MasterState) (A : IP) (s : Slave)
    (h : lookupSlave st.slaves A = some s) :
    ∃ orders' slaves',
      slaves' = insertSlave st.slaves A { s with hasTimedOut := true } ∧
      masterStep myIP st (.slaveTimeout A) =
        (if A = st.backup then StepResult.toPhaseA orders' slaves'
         else .next { st with orders := orders', slaves := slaves' }) ∧
      lookupSlave slaves' A = some { s with hasTimedOut := true } ∧
      (∀ a, a ≠ A → lookupSlave slaves' a = lookupSlave st.slaves a) ∧
      orders'.map Order.button = st.orders.map Order.button := by
  refine ⟨(match delegateWork (insertSlave st.slaves A { s with hasTimedOut := true })
        st.orders with
      | .ok o => o
      | .error _ => st.orders),
    _, rfl, ?_, lookupSlave_insertSlave_self _ _ _,
    fun a ha => lookupSlave_insertSlave_other _ _ _ _ ha, ?_⟩
  · simp only [masterStep, h]
  · cases hd : delegateWork (insertSlave st.slaves A { s with hasTimedOut := true })
        st.orders with
    | ok o =>
      simp only [hd]
      exact delegateWork_buttons _ _ _ hd
    | error e =>
      simp only [hd]

/-- Witness for C8: a known non-backup slave times out in a concrete
one-slave state. -/
theorem slaveTimeout_handling_witness :
    ∃ orders' slaves',
      slaves' = insertSlave
          [("10.0.0.2", { ip := "10.0.0.2", hasTimedOut := false, elevData := elevDataZero })]
          "10.0.0.2"
          { ip := "10.0.0.2", hasTimedOut := true, elevData := elevDataZero } ∧
      masterStep "10.0.0.1"
          { backup := "10.0.0.9", orders := [],
            slaves :=
              [("10.0.0.2",
                { ip := "10.0.0.2", hasTimedOut := false, elevData := elevDataZero })] }
          (.slaveTimeout "10.0.0.2") =
        (if ("10.0.0.2" : IP) = "10.0.0.9" then StepResult.toPhaseA orders' slaves'
         else .next { backup := "10.0.0.9", orders := orders', slaves := slaves' }) ∧
      lookupSlave slaves' "10.0.0.2" =
        some { ip := "10.0.0.2", hasTimedOut := true, elevData := elevDataZero } ∧
      (∀ a, a ≠ "10.0.0.2" → lookupSlave slaves' a =
        lookupSlave
          [("10.0.0.2", { ip := "10.0.0.2", hasTimedOut := false, elevData := elevDataZero })]
          a) ∧
      orders'.map Order.button = ([] : List Order).map Order.button :=
  slaveTimeout_handling "10.0.0.1"
    { backup := "10.0.0.9", orders := [],
      slaves :=
        [("10.0.0.2", { ip := "10.0.0.2", hasTimedOut := false, elevData := elevDataZero })] }
    "10.0.0.2" { ip := "10.0.0.2", hasTimedOut := false, elevData := elevDataZero }
    (by decide)

/-! ### Claim C9 — slave-message record update in Phase B -/

/-- Claim C9: after a decodable Phase B message from `A`, the slaves map
holds a record for `A` with `hasTimedOut = false` and the reported
`elevData` (created when `A` was unknown), every other record is unchanged,
and the backup becomes `A` exactly when the previous backup was the master's
own address and `A` is not. -/
theorem slaveMessage_record_update (myIP : IP) (st : MasterState) (A : IP)
    (msg : SlaveMessage) :
    ∃ st', masterStep myIP st (.fromSlave A (some msg)) = .next st' ∧
      (∃ s', lookupSlave st'.slaves A = some s' ∧ s'.hasTimedOut = false ∧
        s'.elevData = msg.elevData) ∧
      (∀ a, a ≠ A → lookupSlave st'.slaves a = lookupSlave st.slaves a) ∧
      st'.backup = (if st.backup = myIP ∧ A ≠ myIP then A else st.backup) :=
  ⟨_, rfl, ⟨_, lookupSlave_insertSlave_self _ _ _, rfl, rfl⟩,
    fun a ha => lookupSlave_insertSlave_other _ _ _ _ ha, rfl⟩

/-- Witness for C9 at a concrete state in which the message both creates a
record and promotes the sender to backup. -/
theorem slaveMessage_record_update_witness :
    ∃ st', masterStep "10.0.0.1" { backup := "10.0.0.1", orders := [], slaves := [] }
        (.fromSlave "10.0.0.3" (some { elevData := elevDataZero, requests := [] })) =
        .next st' ∧
      (∃ s', lookupSlave st'.slaves "10.0.0.3" = some s' ∧ s'.hasTimedOut = false ∧
        s'.elevData = elevDataZero) ∧
      (∀ a, a ≠ "10.0.0.3" → lookupSlave st'.slaves a = lookupSlave [] a) ∧
      st'.backup =
        (if ("10.0.0.1" : IP) = "10.0.0.1" ∧ ("10.0.0.3" : IP) ≠ "10.0.0.1"
         then "10.0.0.3" else "10.0.0.1") :=
  slaveMessage_record_update "10.0.0.1" { backup := "10.0.0.1", orders := [], slaves := [] }
    "10.0.0.3" { elevData := elevDataZero, requests := [] }

/-! ### Claim C10 — the backup-triggering message is discarded -/

/-- Claim C10: the slave message that triggers the Phase A→B transition
contributes only its source address: the entered loop starts from exactly
the held orders and slaves, the message's requests are not merged, and when
the sender was unknown (under the key-consistency of the slaves map) it is
still absent from the slaves map rebuilt at the top of `masterLoop`. -/
theorem triggerMessage_discarded (myIP : IP) (st : AwaitState) (sender : IP)
    (msg : SlaveMessage) (b : IP) (o : List Order) (s : Slaves)
    (h : initMasterStep myIP st (.fromSlave sender (some msg)) = .enterLoop b o s) :
    b = sender ∧ o = st.orders ∧ s = st.slaves ∧
      (lookupSlave st.slaves sender = none → (∀ p ∈ st.slaves, p.2.ip = p.1) →
        lookupSlave (initSlaves st.slaves) sender = none) := by
  simp only [initMasterStep] at h
  by_cases hc : (st.selfAsBackup = true ∧ sender = myIP) ∨ sender ≠ myIP
  · rw [if_pos hc] at h
    injection h with h1 h2 h3
    exact ⟨h1.symm, h2.symm, h3.symm,
      fun hnone hip => lookupSlave_initSlaves_none _ _ hip hnone⟩
  · rw [if_neg hc] at h
    cases h

/-- Witness for C10: a remote unknown sender triggers the transition and
still has no record in the rebuilt Phase-B slaves map. -/
theorem triggerMessage_discarded_witness :
    ("10.0.0.3" : IP) = "10.0.0.3" ∧
      ([{ button := { type := .hallUp, floor := 1 }, takenBy := "", done := false }] :
          List Order) =
        [{ button := { type := .hallUp, floor := 1 }, takenBy := "", done := false }] ∧
      ([("10.0.0.2", { ip := "10.0.0.2", hasTimedOut := false, elevData := elevDataZero })] :
          Slaves) =
        [("10.0.0.2", { ip := "10.0.0.2", hasTimedOut := false, elevData := elevDataZero })] ∧
      (lookupSlave
          [("10.0.0.2", { ip := "10.0.0.2", hasTimedOut := false, elevData := elevDataZero })]
          "10.0.0.3" = none →
        (∀ p ∈ ([("10.0.0.2",
            { ip := "10.0.0.2", hasTimedOut := false, elevData := elevDataZero })] : Slaves),
          p.2.ip = p.1) →
        lookupSlave
          (initSlaves
            [("10.0.0.2", { ip := "10.0.0.2", hasTimedOut := false, elevData := elevDataZero })])
          "10.0.0.3" = none) :=
  triggerMessage_discarded "10.0.0.1"
    { selfAsBackup := false,
      orders := [{ button := { type := .hallUp, floor := 1 }, takenBy := "", done := false }],
      slaves :=
        [("10.0.0.2", { ip := "10.0.0.2", hasTimedOut := false, elevData := elevDataZero })] }
    "10.0.0.3"
    { elevData := elevDataZero,
      requests := [{ button := { type := .hallDown, floor := 2 }, takenBy := "", done := false }] }
    "10.0.0.3"
    [{ button := { type := .hallUp, floor := 1 }, takenBy := "", done := false }]
    [("10.0.0.2", { ip := "10.0.0.2", hasTimedOut := false, elevData := elevDataZero })]
    (by decide)

end TTK4145
